import Mathlib

/-!
Verification development for the telecom_test dispatch-and-scoring core.

Shallow embedding of the Rust sources:
  src/lib.rs      (VerificationServer, RoundRobinBalancer, BalancerType)
  src/provider.rs (MockTelecomProvider)
  src/repo.rs     (VerificationKeeper, VerificationStep, VerificationEntry)

Modelling conventions:
  - Rust panics (modulo by zero, unimplemented!, HashMap missing-key indexing)
    are modelled as Option.none or an Except.error carrying the panic message.
  - f32 averages are modelled as Rat; the weights are small naturals and the
    divisions involved are exact, so Rat is a faithful model of the values the
    code computes (no rounding occurs for the magnitudes in scope).
  - The rand thread_rng gen_range(0, 100) draws are an explicit input stream
    draws : Nat -> Nat, one value per rng invocation inside a verify call;
    gen_range(0, 100) yields values in [0, 100), which hypotheses record.
  - Rust slice sort / sort_by are stable sorts; they are modelled with
    List.insertionSort (also stable); on Nat keys the sorted result is unique.
  - HashMap iteration order is unspecified in Rust; grouping is modelled in
    first-occurrence order, a fixed deterministic order, which is one of the
    admissible iteration orders for the properties at stake (the final list is
    sorted by mean weight afterwards).
  - Timestamps (chrono DateTime) are opaque Int values.
-/

/-- VerificationStep from src/repo.rs: outcome of a verification attempt,
in increasing order of cost/badness. -/
inductive VerificationStep where
  | FirstSMS
  | SecondSMS
  | FirstTextToSpeech
  | SecondTextToSpeech
  | Unreachable
deriving DecidableEq

/-- VerificationEntry from src/repo.rs: one immutable record of a completed
attempt. -/
structure VerificationEntry where
  carrier : String
  number : String
  time : Int
  step : VerificationStep
deriving DecidableEq

/-- VerificationRequest from src/lib.rs: caller input. -/
structure VerificationRequest where
  number : String
  time : Int
deriving DecidableEq

/-- VerificationResponse from src/lib.rs: caller-facing outcome. -/
structure VerificationResponse where
  token : Option String
  error : Option String
deriving DecidableEq

/-- The token built in VerificationServer::handle_request:
format("Authorization: Bearer ey{number}{timestamp}"). -/
def mkToken (number : String) (now : Int) : String :=
  "Authorization: Bearer ey" ++ number ++ toString now

/-- MockTelecomProvider from src/provider.rs. -/
structure MockTelecomProvider where
  name : String
  chance_sms : Nat
  chance_voice : Nat
deriving DecidableEq

/-- MockTelecomProvider::new: rejects probabilities above 100. -/
def MockTelecomProvider.new (name : String) (chance_sms chance_voice : Nat) :
    Except String MockTelecomProvider :=
  if chance_sms > 100 ∨ chance_voice > 100 then
    Except.error "probability must be a number between 0 and 100"
  else
    Except.ok ⟨name, chance_sms, chance_voice⟩

/-- MockTelecomProvider::send_sms: draw is the gen_range(0, 100) result;
the code tests num <= self.chance_sms. -/
def MockTelecomProvider.send_sms (p : MockTelecomProvider) (draw : Nat) : Bool :=
  draw ≤ p.chance_sms

/-- MockTelecomProvider::send_voice: the code tests num <= self.chance_voice. -/
def MockTelecomProvider.send_voice (p : MockTelecomProvider) (draw : Nat) : Bool :=
  draw ≤ p.chance_voice

/-- The step cascade inside MockTelecomProvider::verify: SMS, SMS, voice,
voice, else Unreachable; draws i is the i-th rng draw of this call. -/
def MockTelecomProvider.verify_step (p : MockTelecomProvider) (draws : Nat → Nat) :
    VerificationStep :=
  if p.send_sms (draws 0) then VerificationStep.FirstSMS
  else if p.send_sms (draws 1) then VerificationStep.SecondSMS
  else if p.send_voice (draws 2) then VerificationStep.FirstTextToSpeech
  else if p.send_voice (draws 3) then VerificationStep.SecondTextToSpeech
  else VerificationStep.Unreachable

/-- MockTelecomProvider::verify: runs the cascade and wraps the entry. -/
def MockTelecomProvider.verify (p : MockTelecomProvider) (number : String)
    (time : Int) (draws : Nat → Nat) : VerificationEntry :=
  ⟨p.name, number, time, p.verify_step draws⟩

/-- BalancerType from src/lib.rs. -/
inductive BalancerType where
  | RoundRobin
  | Best
deriving DecidableEq

/-- BalancerType::from_str. -/
def BalancerType.from_str (s : String) : Except String BalancerType :=
  if s = "rr" ∨ s = "round-robin" then Except.ok BalancerType.RoundRobin
  else if s = "b" ∨ s = "best" then Except.ok BalancerType.Best
  else Except.error ("Invalid client_mode: " ++ s)

/-- RoundRobinBalancer from src/lib.rs; the Arc-RwLock cell is modelled as a
plain counter threaded through next_idx. -/
structure RoundRobinBalancer where
  cur_idx : Nat
deriving DecidableEq

/-- RoundRobinBalancer::new. -/
def RoundRobinBalancer.new : RoundRobinBalancer := ⟨0⟩

/-- RoundRobinBalancer::next_idx: returns the current counter and rotates it
with (cur_idx + 1) % carrier_len.  In Rust the remainder operation panics when
carrier_len = 0; the panic is modelled as none. -/
def RoundRobinBalancer.next_idx (b : RoundRobinBalancer) (carrier_len : Nat) :
    Option (Nat × RoundRobinBalancer) :=
  let idx := b.cur_idx
  if carrier_len = 0 then none
  else some (idx, ⟨(b.cur_idx + 1) % carrier_len⟩)

/-- Driver iterating next_idx m consecutive times with the constant argument n,
collecting the returned indices; stops if a call panics. -/
def rrRun (n : Nat) : Nat → RoundRobinBalancer → List Nat
  | 0, _ => []
  | m + 1, b =>
    match b.next_idx n with
    | none => []
    | some (idx, b2) => idx :: rrRun n m b2

/-- The step-weight table built by VerificationKeeper::new: each step is
mapped to its positional weight. -/
def weightTable (v0 v1 v2 v3 v4 : Nat) : List (VerificationStep × Nat) :=
  [(VerificationStep.FirstSMS, v0), (VerificationStep.SecondSMS, v1),
   (VerificationStep.FirstTextToSpeech, v2), (VerificationStep.SecondTextToSpeech, v3),
   (VerificationStep.Unreachable, v4)]

/-- Positional weight of a step for input weights v0..v4 (spec-side view of
the table built by VerificationKeeper::new). -/
def stepWeight (v0 v1 v2 v3 v4 : Nat) : VerificationStep → Nat
  | VerificationStep.FirstSMS => v0
  | VerificationStep.SecondSMS => v1
  | VerificationStep.FirstTextToSpeech => v2
  | VerificationStep.SecondTextToSpeech => v3
  | VerificationStep.Unreachable => v4

/-- VerificationKeeper from src/repo.rs: entry log plus step-weight HashMap
(modelled as an association list). -/
structure VerificationKeeper where
  entries : List VerificationEntry
  step_weights : List (VerificationStep × Nat)
deriving DecidableEq

/-- VerificationKeeper::new: sorts a copy of the five weights and fails if the
input differs from its sorted version, else installs the table and an empty
log.  Rust uses slice::sort (stable); on u32 values the sorted list is the
unique nondecreasing permutation, here computed by insertionSort. -/
def VerificationKeeper.new (v0 v1 v2 v3 v4 : Nat) : Except String VerificationKeeper :=
  if [v0, v1, v2, v3, v4] ≠ List.insertionSort (· ≤ ·) [v0, v1, v2, v3, v4] then
    Except.error "step_values must be provided in ascending sequence"
  else
    Except.ok ⟨[], weightTable v0 v1 v2 v3 v4⟩

/-- VerificationKeeper::store_attempt: appends the entry, always Ok. -/
def VerificationKeeper.store_attempt (k : VerificationKeeper)
    (entry : VerificationEntry) : Except String VerificationKeeper :=
  Except.ok ⟨k.entries ++ [entry], k.step_weights⟩

/-- HashMap lookup self.step_weights[&s] (first matching key). -/
def findWeight : List (VerificationStep × Nat) → VerificationStep → Option Nat
  | [], _ => none
  | (k, v) :: rest, s => if k = s then some v else findWeight rest s

/-- The weight lookups performed by get_weighted_avg over a group; a missing
key panics in Rust, modelled as none. -/
def lookupAllWeights : List VerificationStep → List (VerificationStep × Nat) → Option (List Nat)
  | [], _ => some []
  | s :: rest, tbl =>
    match findWeight tbl s, lookupAllWeights rest tbl with
    | some w, some ws => some (w :: ws)
    | _, _ => none

/-- VerificationKeeper::get_weighted_avg: weighted_sum as f32 / attempts len
as f32, here over Rat. -/
def VerificationKeeper.get_weighted_avg (k : VerificationKeeper)
    (attempts : List VerificationStep) : Option Rat :=
  match lookupAllWeights attempts k.step_weights with
  | none => none
  | some ws => some ((ws.sum : Rat) / (attempts.length : Rat))

/-- One loop iteration of get_provider_rank grouping: push the step onto the
carrier's group, or insert a fresh singleton group. -/
def insertStep (acc : List (String × List VerificationStep)) (c : String)
    (s : VerificationStep) : List (String × List VerificationStep) :=
  match acc with
  | [] => [(c, [s])]
  | (k, v) :: rest =>
    if k = c then (k, v ++ [s]) :: rest else (k, v) :: insertStep rest c s

/-- The by_carrier grouping loop of get_provider_rank, in first-occurrence
order of the carriers. -/
def groupByCarrier (entries : List VerificationEntry) :
    List (String × List VerificationStep) :=
  entries.foldl (fun acc e => insertStep acc e.carrier e.step) []

/-- Association lookup in a grouping (first matching carrier). -/
def groupFind : List (String × List VerificationStep) → String → Option (List VerificationStep)
  | [], _ => none
  | (k, v) :: rest, c => if k = c then some v else groupFind rest c

/-- The steps of the entries recorded for carrier c, in log order. -/
def stepsOf (es : List VerificationEntry) (c : String) : List VerificationStep :=
  match es with
  | [] => []
  | e :: rest => if e.carrier = c then e.step :: stepsOf rest c else stepsOf rest c

/-- Arithmetic mean of the step weights of a list of steps. -/
def meanWeight (v0 v1 v2 v3 v4 : Nat) (steps : List VerificationStep) : Rat :=
  (((steps.map (stepWeight v0 v1 v2 v3 v4)).sum : Nat) : Rat) / ((steps.length : Nat) : Rat)

/-- The comparison used by rank.sort_by: ascending mean weight. -/
def rankRel (a b : String × Rat) : Prop := a.2 ≤ b.2

instance : DecidableRel rankRel :=
  fun a b => inferInstanceAs (Decidable (a.2 ≤ b.2))

instance : IsTotal (String × Rat) rankRel :=
  ⟨fun a b => le_total a.2 b.2⟩

instance : IsTrans (String × Rat) rankRel :=
  ⟨fun _ _ _ hab hbc => le_trans hab hbc⟩

/-- The map over groups computing each carrier's weighted average; a panic in
get_weighted_avg propagates. -/
def rankGroups (k : VerificationKeeper) :
    List (String × List VerificationStep) → Option (List (String × Rat))
  | [] => some []
  | (c, steps) :: rest =>
    match k.get_weighted_avg steps, rankGroups k rest with
    | some q, some r => some ((c, q) :: r)
    | _, _ => none

/-- VerificationKeeper::get_provider_rank: group by carrier, compute each
weighted average, sort ascending by the average (sort_by over partial_cmp,
modelled by the stable insertionSort over rankRel). -/
def VerificationKeeper.get_provider_rank (k : VerificationKeeper) :
    Option (List (String × Rat)) :=
  match rankGroups k (groupByCarrier k.entries) with
  | none => none
  | some rank => some (List.insertionSort rankRel rank)

/-- Iterated store_attempt calls (store_attempt never fails; were it to fail
the keeper is left unchanged, matching an aborted call). -/
def storeAll (k : VerificationKeeper) : List VerificationEntry → VerificationKeeper
  | [] => k
  | e :: es =>
    match k.store_attempt e with
    | Except.ok k2 => storeAll k2 es
    | Except.error _ => k

/-- VerificationServer from src/lib.rs, generic over the repo implementation
behind the VerificationRepo trait object; the balancer field holds the only
implemented balancer. -/
structure VerificationServer (ρ : Type) where
  carriers : List MockTelecomProvider
  balancer : RoundRobinBalancer
  repo : ρ

/-- VerificationServer::new: RoundRobin installs a fresh RoundRobinBalancer;
Best hits unimplemented!("BestBalancer is not supported yet"), a panic
modelled as an error carrying the panic message. -/
def VerificationServer.new {ρ : Type} (client_mode : BalancerType)
    (carriers : List MockTelecomProvider) (repo : ρ) :
    Except String (VerificationServer ρ) :=
  match client_mode with
  | BalancerType.RoundRobin => Except.ok ⟨carriers, RoundRobinBalancer.new, repo⟩
  | BalancerType.Best => Except.error "not implemented: BestBalancer is not supported yet"

/-- VerificationServer::handle_request.  The code calls
balancer.next_idx(carriers.len()) first (none = panic propagates), then
carriers.get(idx) (the None arm returns the no-carriers response), then
verify, then store_attempt (the ? operator propagates its error), then maps
the step to the response.  store is the repo trait object's store_attempt. -/
def VerificationServer.handle_request {ρ : Type}
    (store : ρ → VerificationEntry → Except String ρ) (s : VerificationServer ρ)
    (request : VerificationRequest) (draws : Nat → Nat) (now : Int) :
    Option (Except String (VerificationResponse × VerificationServer ρ)) :=
  match s.balancer.next_idx s.carriers.length with
  | none => none
  | some (idx, balancer2) =>
    match s.carriers[idx]? with
    | none =>
      some (Except.ok (⟨none, some "no carriers found"⟩, ⟨s.carriers, balancer2, s.repo⟩))
    | some carrier =>
      match store s.repo (carrier.verify request.number now draws) with
      | Except.error e => some (Except.error e)
      | Except.ok repo2 =>
        match (carrier.verify request.number now draws).step with
        | VerificationStep.Unreachable =>
          some (Except.ok (⟨none, some "verification unsuccessful"⟩,
            ⟨s.carriers, balancer2, repo2⟩))
        | _ =>
          some (Except.ok (⟨some (mkToken request.number now), none⟩,
            ⟨s.carriers, balancer2, repo2⟩))

/-- The two-carrier example of the specification: A with FirstSMS and
Unreachable, B with FirstSMS and SecondSMS. -/
def exampleEntries : List VerificationEntry :=
  [⟨"A", "0177", 0, VerificationStep.FirstSMS⟩,
   ⟨"A", "0178", 0, VerificationStep.Unreachable⟩,
   ⟨"B", "0179", 0, VerificationStep.FirstSMS⟩,
   ⟨"B", "0180", 0, VerificationStep.SecondSMS⟩]

/-! ## Lemmas about the round-robin balancer -/

/-- From a counter below n, m calls of next_idx with constant argument n
produce the cyclic sequence (c + i) % n. -/
theorem rrRun_eq_map_range (n : Nat) (hn : 0 < n) :
    ∀ (m c : Nat), c < n →
      rrRun n m ⟨c⟩ = (List.range m).map (fun i => (c + i) % n) := by
  intro m
  induction m with
  | zero => intro c _; simp [rrRun]
  | succ m ih =>
      intro c hc
      have hn0 : ¬ n = 0 := by omega
      have hstep : RoundRobinBalancer.next_idx ⟨c⟩ n = some (c, ⟨(c + 1) % n⟩) := by
        simp [RoundRobinBalancer.next_idx, hn0]
      rw [show rrRun n (m + 1) ⟨c⟩ = c :: rrRun n m ⟨(c + 1) % n⟩ from by
        rw [rrRun, hstep]]
      rw [ih ((c + 1) % n) (Nat.mod_lt _ hn)]
      rw [List.range_succ_eq_map, List.map_cons, List.map_map]
      congr 1
      · simp [Nat.mod_eq_of_lt hc]
      · apply List.map_congr_left
        intro i _
        show ((c + 1) % n + i) % n = (c + (i + 1)) % n
        rw [Nat.mod_add_mod]
        congr 1
        omega

/-- Each residue j < n occurs exactly k times among the first k*n values
of i % n. -/
theorem count_mod_range (n : Nat) (hn : 0 < n) (j : Nat) (hj : j < n) :
    ∀ k, ((List.range (k * n)).map (fun i => i % n)).count j = k := by
  intro k
  induction k with
  | zero => simp
  | succ k ih =>
      rw [Nat.succ_mul, List.range_add, List.map_append, List.count_append, ih]
      have h2 : (List.map (fun x => k * n + x) (List.range n)).map (fun i => i % n) =
          List.range n := by
        rw [List.map_map]
        have hcong : ∀ a ∈ List.range n,
            ((fun i => i % n) ∘ fun x => k * n + x) a = id a := by
          intro a ha
          have halt : a < n := List.mem_range.mp ha
          show (k * n + a) % n = a
          rw [Nat.mul_comm k n, Nat.mul_add_mod]
          exact Nat.mod_eq_of_lt halt
        rw [List.map_congr_left hcong, List.map_id]
      rw [h2, List.count_eq_one_of_mem (List.nodup_range n) (List.mem_range.mpr hj)]

/-- getD on a mapped range evaluates the function at the index. -/
theorem getD_map_range (f : Nat → Nat) (m i : Nat) (h : i < m) :
    ((List.range m).map f).getD i 0 = f i := by
  rw [List.getD_eq_getElem?_getD, List.getElem?_map, List.getElem?_range h]
  rfl

/-! ## Claim theorems: balancer and provider -/

/-- Claim C3: for every pool size n >= 1 and k >= 1, a fresh round-robin
balancer called k*n consecutive times with constant argument n returns each
index in [0, n) exactly k times, the i-th returned index is i % n (cyclic
ascending order starting at 0), and every returned index is below n. -/
theorem round_robin_fairness (n k : Nat) (hn : 1 ≤ n) (hk : 1 ≤ k) :
    (∀ j, j < n → (rrRun n (k * n) RoundRobinBalancer.new).count j = k) ∧
    (∀ i, i < k * n → (rrRun n (k * n) RoundRobinBalancer.new).getD i 0 = i % n) ∧
    (∀ x ∈ rrRun n (k * n) RoundRobinBalancer.new, x < n) := by
  have hn0 : 0 < n := hn
  have hrun : rrRun n (k * n) RoundRobinBalancer.new =
      (List.range (k * n)).map (fun i => i % n) := by
    rw [show RoundRobinBalancer.new = (⟨0⟩ : RoundRobinBalancer) from rfl]
    rw [rrRun_eq_map_range n hn0 (k * n) 0 hn0]
    apply List.map_congr_left
    intro i _
    simp
  refine ⟨?_, ?_, ?_⟩
  · intro j hj
    rw [hrun]
    exact count_mod_range n hn0 j hj k
  · intro i hi
    rw [hrun]
    exact getD_map_range _ _ _ hi
  · intro x hx
    rw [hrun] at hx
    rcases List.mem_map.mp hx with ⟨i, _, rfl⟩
    exact Nat.mod_lt _ hn0

/-- Witness for C3 at n = 2, k = 3. -/
theorem round_robin_fairness_witness :
    (rrRun 2 6 RoundRobinBalancer.new).count 1 = 3 :=
  (round_robin_fairness 2 3 (by decide) (by decide)).1 1 (by decide)

/-- Claim C1 (code bug evidence): with an empty carriers pool, handle_request
reaches next_idx with carrier_len = 0 before carriers.get is consulted, and
the remainder (cur_idx + 1) % 0 panics (modelled: the call yields none instead
of the no-carriers response the claim describes). -/
theorem handle_request_empty_pool_panics (ρ : Type)
    (store : ρ → VerificationEntry → Except String ρ) (b : RoundRobinBalancer)
    (repo : ρ) (request : VerificationRequest) (draws : Nat → Nat) (now : Int) :
    VerificationServer.handle_request store ⟨[], b, repo⟩ request draws now = none := rfl

/-- Claim C2 (code bug evidence): a provider constructed with chance_sms = 0
and chance_voice = 0 accepts its construction, yet on the admissible rng draw
0 (gen_range(0,100) can return 0, and 0 <= chance_sms holds) verify resolves
to FirstSMS, not Unreachable. -/
theorem verify_zero_chance_first_draw_zero :
    MockTelecomProvider.new "carrier_1" 0 0 = Except.ok ⟨"carrier_1", 0, 0⟩ ∧
    (0 : Nat) < 100 ∧
    ((MockTelecomProvider.mk "carrier_1" 0 0).verify "0177" 0 (fun _ => 0)).step =
      VerificationStep.FirstSMS :=
  ⟨rfl, by decide, rfl⟩

/-- Claim C9: a provider constructed with chance_sms = 100 and any
chance_voice resolves to FirstSMS for every admissible draw sequence
(gen_range(0,100) yields values below 100, all of which satisfy
draw <= 100). -/
theorem verify_full_sms_chance_first_sms (name number : String) (time : Int)
    (chance_voice : Nat) (p : MockTelecomProvider) (draws : Nat → Nat)
    (hnew : MockTelecomProvider.new name 100 chance_voice = Except.ok p)
    (hd : ∀ i, draws i < 100) :
    (p.verify number time draws).step = VerificationStep.FirstSMS := by
  unfold MockTelecomProvider.new at hnew
  split at hnew
  · cases hnew
  · cases hnew
    have h0 : draws 0 ≤ 100 := Nat.le_of_lt (hd 0)
    simp [MockTelecomProvider.verify, MockTelecomProvider.verify_step,
      MockTelecomProvider.send_sms, h0]

/-- Witness for C9 at a concrete provider and the extreme admissible draw. -/
theorem verify_full_sms_chance_first_sms_witness :
    ((MockTelecomProvider.mk "carrier_1" 100 50).verify "0177" 0 (fun _ => 99)).step =
      VerificationStep.FirstSMS :=
  verify_full_sms_chance_first_sms "carrier_1" "0177" 0 50 ⟨"carrier_1", 100, 50⟩
    (fun _ => 99) rfl (fun _ => by show (99 : Nat) < 100; decide)

/-- Claim C8: constructing a server with the Best strategy fails with the
explicit unimplemented panic message and never falls back to round-robin,
while RoundRobin succeeds for every carriers pool and repo; from_str accepts
the best strategy syntactically. -/
theorem server_new_strategy (ρ : Type) (carriers : List MockTelecomProvider)
    (repo : ρ) :
    VerificationServer.new BalancerType.Best carriers repo =
      Except.error "not implemented: BestBalancer is not supported yet" ∧
    VerificationServer.new BalancerType.RoundRobin carriers repo =
      Except.ok ⟨carriers, RoundRobinBalancer.new, repo⟩ ∧
    BalancerType.from_str "best" = Except.ok BalancerType.Best ∧
    BalancerType.from_str "b" = Except.ok BalancerType.Best :=
  ⟨rfl, rfl, rfl, rfl⟩

/-! ## Lemmas and claim for VerificationKeeper::new (C5) -/

/-- A five-element list is fixed by sorting iff its entries are
nondecreasing. -/
theorem insertionSort_eq_self_iff_chain (v0 v1 v2 v3 v4 : Nat) :
    ([v0, v1, v2, v3, v4] = List.insertionSort (· ≤ ·) [v0, v1, v2, v3, v4]) ↔
      (v0 ≤ v1 ∧ v1 ≤ v2 ∧ v2 ≤ v3 ∧ v3 ≤ v4) := by
  constructor
  · intro h
    have hs : List.Sorted (· ≤ ·) [v0, v1, v2, v3, v4] := by
      rw [h]
      exact List.sorted_insertionSort _ _
    simp [List.sorted_cons] at hs
    omega
  · intro h
    have hs : List.Sorted (· ≤ ·) [v0, v1, v2, v3, v4] := by
      simp [List.sorted_cons]
      omega
    exact (List.Sorted.insertionSort_eq hs).symm

/-- Claim C5: VerificationKeeper::new errors iff the five weights, in step
order, are not nondecreasing; on success each step is mapped to its
positional weight and the entry log starts empty. -/
theorem keeper_new_nondecreasing_iff (v0 v1 v2 v3 v4 : Nat) :
    ((∃ e, VerificationKeeper.new v0 v1 v2 v3 v4 = Except.error e) ↔
      ¬ (v0 ≤ v1 ∧ v1 ≤ v2 ∧ v2 ≤ v3 ∧ v3 ≤ v4)) ∧
    ((v0 ≤ v1 ∧ v1 ≤ v2 ∧ v2 ≤ v3 ∧ v3 ≤ v4) →
      VerificationKeeper.new v0 v1 v2 v3 v4 =
        Except.ok ⟨[], weightTable v0 v1 v2 v3 v4⟩) := by
  by_cases hc : [v0, v1, v2, v3, v4] = List.insertionSort (· ≤ ·) [v0, v1, v2, v3, v4]
  · have hnew : VerificationKeeper.new v0 v1 v2 v3 v4 =
        Except.ok ⟨[], weightTable v0 v1 v2 v3 v4⟩ := by
      unfold VerificationKeeper.new
      rw [if_neg (not_not_intro hc)]
    constructor
    · constructor
      · rintro ⟨e, he⟩
        rw [hnew] at he
        cases he
      · intro hneg
        exact absurd ((insertionSort_eq_self_iff_chain v0 v1 v2 v3 v4).mp hc) hneg
    · intro _
      exact hnew
  · have hnew : VerificationKeeper.new v0 v1 v2 v3 v4 =
        Except.error "step_values must be provided in ascending sequence" := by
      unfold VerificationKeeper.new
      rw [if_pos hc]
    constructor
    · constructor
      · intro _ hchain
        exact hc ((insertionSort_eq_self_iff_chain v0 v1 v2 v3 v4).mpr hchain)
      · intro _
        exact ⟨_, hnew⟩
    · intro hchain
      exact absurd ((insertionSort_eq_self_iff_chain v0 v1 v2 v3 v4).mpr hchain) hc

/-- Witness for C5 at the weights 1 2 3 4 5. -/
theorem keeper_new_nondecreasing_iff_witness :
    VerificationKeeper.new 1 2 3 4 5 = Except.ok ⟨[], weightTable 1 2 3 4 5⟩ :=
  (keeper_new_nondecreasing_iff 1 2 3 4 5).2 (by decide)

/-! ## Lemmas about handle_request on a selectable carrier -/

/-- The token issued by handle_request is never the empty string. -/
theorem mkToken_ne_empty (number : String) (now : Int) : mkToken number now ≠ "" := by
  intro h
  have h2 := congrArg String.length h
  rw [mkToken, String.length_append, String.length_append] at h2
  have h24 : ("Authorization: Bearer ey").length = 24 := rfl
  have h0 : ("" : String).length = 0 := rfl
  rw [h24, h0] at h2
  omega

/-- When the balancer's current index selects a carrier and the store fails,
handle_request propagates the store error. -/
theorem handle_request_store_error {ρ : Type}
    (store : ρ → VerificationEntry → Except String ρ) (s : VerificationServer ρ)
    (request : VerificationRequest) (draws : Nat → Nat) (now : Int)
    (carrier : MockTelecomProvider) (e : String)
    (hc : s.carriers[s.balancer.cur_idx]? = some carrier)
    (hstore : store s.repo (carrier.verify request.number now draws) = Except.error e) :
    VerificationServer.handle_request store s request draws now = some (Except.error e) := by
  have hlen : ¬ s.carriers.length = 0 := by
    intro h0
    rw [List.length_eq_zero] at h0
    rw [h0] at hc
    simp at hc
  have hnext : s.balancer.next_idx s.carriers.length =
      some (s.balancer.cur_idx, ⟨(s.balancer.cur_idx + 1) % s.carriers.length⟩) := by
    simp [RoundRobinBalancer.next_idx, hlen]
  unfold VerificationServer.handle_request
  rw [hnext]
  dsimp only
  rw [hc]
  dsimp only
  rw [hstore]

/-- When the balancer's current index selects a carrier and the store
succeeds, handle_request returns the step-determined response and the rotated
balancer together with the stored repo. -/
theorem handle_request_store_ok_case {ρ : Type}
    (store : ρ → VerificationEntry → Except String ρ) (s : VerificationServer ρ)
    (request : VerificationRequest) (draws : Nat → Nat) (now : Int)
    (carrier : MockTelecomProvider) (repo2 : ρ)
    (hc : s.carriers[s.balancer.cur_idx]? = some carrier)
    (hstore : store s.repo (carrier.verify request.number now draws) = Except.ok repo2) :
    VerificationServer.handle_request store s request draws now =
      some (Except.ok
        ((if (carrier.verify request.number now draws).step = VerificationStep.Unreachable then
            (⟨none, some "verification unsuccessful"⟩ : VerificationResponse)
          else ⟨some (mkToken request.number now), none⟩),
         ⟨s.carriers, ⟨(s.balancer.cur_idx + 1) % s.carriers.length⟩, repo2⟩)) := by
  have hlen : ¬ s.carriers.length = 0 := by
    intro h0
    rw [List.length_eq_zero] at h0
    rw [h0] at hc
    simp at hc
  have hnext : s.balancer.next_idx s.carriers.length =
      some (s.balancer.cur_idx, ⟨(s.balancer.cur_idx + 1) % s.carriers.length⟩) := by
    simp [RoundRobinBalancer.next_idx, hlen]
  unfold VerificationServer.handle_request
  rw [hnext]
  dsimp only
  rw [hc]
  dsimp only
  rw [hstore]
  dsimp only
  rcases h5 : (carrier.verify request.number now draws).step with h | h | h | h | h <;> simp

/-! ## Claim theorems: handle_request outcomes (C6, C7) -/

/-- Claim C6: on a pool where the balancer's index selects a carrier and
storing succeeds, an Unreachable step yields a response with no token and the
error "verification unsuccessful", and every other step yields a response
carrying the (non-empty) bearer token and no error. -/
theorem handle_request_outcome_token {ρ : Type}
    (store : ρ → VerificationEntry → Except String ρ) (s : VerificationServer ρ)
    (request : VerificationRequest) (draws : Nat → Nat) (now : Int)
    (carrier : MockTelecomProvider) (repo2 : ρ)
    (hc : s.carriers[s.balancer.cur_idx]? = some carrier)
    (hstore : store s.repo (carrier.verify request.number now draws) = Except.ok repo2) :
    ∃ resp s2,
      VerificationServer.handle_request store s request draws now =
        some (Except.ok (resp, s2)) ∧
      ((carrier.verify request.number now draws).step = VerificationStep.Unreachable →
        resp.token = none ∧ resp.error = some "verification unsuccessful") ∧
      ((carrier.verify request.number now draws).step ≠ VerificationStep.Unreachable →
        resp.token = some (mkToken request.number now) ∧ mkToken request.number now ≠ "" ∧
          resp.error = none) := by
  refine ⟨_, _, handle_request_store_ok_case store s request draws now carrier repo2 hc hstore,
    ?_, ?_⟩
  · intro hstep
    rw [if_pos hstep]
    exact ⟨rfl, rfl⟩
  · intro hstep
    rw [if_neg hstep]
    exact ⟨rfl, mkToken_ne_empty _ _, rfl⟩

/-- Witness for C6: a one-carrier pool with chance_sms = 100 and the all-zero
draw stream. -/
theorem handle_request_outcome_token_witness :
    ∃ resp s2,
      VerificationServer.handle_request VerificationKeeper.store_attempt
        (⟨[⟨"carrier_1", 100, 50⟩], ⟨0⟩, ⟨[], weightTable 1 2 3 4 5⟩⟩ :
          VerificationServer VerificationKeeper)
        ⟨"0177", 0⟩ (fun _ => 0) 0 = some (Except.ok (resp, s2)) ∧
      (((⟨"carrier_1", 100, 50⟩ : MockTelecomProvider).verify "0177" 0 (fun _ => 0)).step =
          VerificationStep.Unreachable →
        resp.token = none ∧ resp.error = some "verification unsuccessful") ∧
      (((⟨"carrier_1", 100, 50⟩ : MockTelecomProvider).verify "0177" 0 (fun _ => 0)).step ≠
          VerificationStep.Unreachable →
        resp.token = some (mkToken "0177" 0) ∧ mkToken "0177" 0 ≠ "" ∧ resp.error = none) :=
  handle_request_outcome_token VerificationKeeper.store_attempt
    ⟨[⟨"carrier_1", 100, 50⟩], ⟨0⟩, ⟨[], weightTable 1 2 3 4 5⟩⟩ ⟨"0177", 0⟩ (fun _ => 0) 0
    ⟨"carrier_1", 100, 50⟩
    ⟨[(⟨"carrier_1", 100, 50⟩ : MockTelecomProvider).verify "0177" 0 (fun _ => 0)],
      weightTable 1 2 3 4 5⟩ rfl rfl

/-- Claim C7: the selected carrier's entry is appended to the ledger exactly
once (the in-memory keeper leaves all previous entries and the weight table
unchanged and returns Ok), and a store error propagates to the caller instead
of a success outcome. -/
theorem store_attempt_propagation :
    (∀ (ρ : Type) (store : ρ → VerificationEntry → Except String ρ)
        (s : VerificationServer ρ) (request : VerificationRequest)
        (draws : Nat → Nat) (now : Int) (carrier : MockTelecomProvider) (e : String),
      s.carriers[s.balancer.cur_idx]? = some carrier →
      store s.repo (carrier.verify request.number now draws) = Except.error e →
      VerificationServer.handle_request store s request draws now = some (Except.error e)) ∧
    (∀ (s : VerificationServer VerificationKeeper) (request : VerificationRequest)
        (draws : Nat → Nat) (now : Int) (carrier : MockTelecomProvider),
      s.carriers[s.balancer.cur_idx]? = some carrier →
      ∃ resp,
        VerificationServer.handle_request VerificationKeeper.store_attempt s request draws now =
          some (Except.ok (resp,
            ⟨s.carriers, ⟨(s.balancer.cur_idx + 1) % s.carriers.length⟩,
             ⟨s.repo.entries ++ [carrier.verify request.number now draws],
              s.repo.step_weights⟩⟩))) ∧
    (∀ (k : VerificationKeeper) (entry : VerificationEntry),
      k.store_attempt entry = Except.ok ⟨k.entries ++ [entry], k.step_weights⟩) := by
  refine ⟨?_, ?_, ?_⟩
  · intro ρ store s request draws now carrier e hc hstore
    exact handle_request_store_error store s request draws now carrier e hc hstore
  · intro s request draws now carrier hc
    exact ⟨_, handle_request_store_ok_case VerificationKeeper.store_attempt s request draws now
      carrier ⟨s.repo.entries ++ [carrier.verify request.number now draws], s.repo.step_weights⟩
      hc rfl⟩
  · intro k entry
    rfl

/-- Witness for C7: a store that fails with "disk full" propagates to the
caller. -/
theorem store_attempt_propagation_witness :
    VerificationServer.handle_request
      (fun (_ : Unit) (_ : VerificationEntry) => (Except.error "disk full" : Except String Unit))
      (⟨[⟨"carrier_1", 100, 50⟩], ⟨0⟩, ()⟩ : VerificationServer Unit) ⟨"0177", 0⟩
      (fun _ => 0) 0 = some (Except.error "disk full") :=
  store_attempt_propagation.1 Unit (fun _ _ => Except.error "disk full")
    ⟨[⟨"carrier_1", 100, 50⟩], ⟨0⟩, ()⟩ ⟨"0177", 0⟩ (fun _ => 0) 0
    ⟨"carrier_1", 100, 50⟩ "disk full" rfl rfl

/-! ## Lemmas about grouping and ranking (towards C4 and C10) -/

/-- Inserting a step for carrier c updates exactly the group of c (appending
the step, starting a singleton group if absent) and leaves other groups
unchanged. -/
theorem groupFind_insertStep :
    ∀ (acc : List (String × List VerificationStep)) (c : String) (s : VerificationStep)
      (d : String),
      groupFind (insertStep acc c s) d =
        if d = c then some (((groupFind acc c).getD []) ++ [s]) else groupFind acc d := by
  intro acc
  induction acc with
  | nil =>
      intro c s d
      by_cases h : d = c
      · subst h
        simp [insertStep, groupFind]
      · simp [insertStep, groupFind, h, Ne.symm h]
  | cons p rest ih =>
      rcases p with ⟨k, v⟩
      intro c s d
      by_cases hkc : k = c
      · subst hkc
        by_cases hdc : d = k
        · subst hdc
          simp [insertStep, groupFind]
        · simp [insertStep, groupFind, hdc, Ne.symm hdc]
      · by_cases hdc : d = c
        · subst hdc
          have hkd : ¬ k = d := hkc
          simp [insertStep, groupFind, hkc, hkd, ih]
        · by_cases hkd : k = d
          · subst hkd
            simp [insertStep, groupFind, hkc, ih, hdc]
          · simp [insertStep, groupFind, hkc, hkd, ih, hdc]

/-- The carriers present after an insertion are the previous ones plus the
inserted carrier. -/
theorem mem_fst_insertStep :
    ∀ (acc : List (String × List VerificationStep)) (c : String) (s : VerificationStep)
      (d : String),
      d ∈ (insertStep acc c s).map Prod.fst ↔ d ∈ acc.map Prod.fst ∨ d = c := by
  intro acc
  induction acc with
  | nil => intro c s d; simp [insertStep]
  | cons p rest ih =>
      rcases p with ⟨k, v⟩
      intro c s d
      by_cases hkc : k = c
      · subst hkc
        simp [insertStep]
        tauto
      · simp [insertStep, hkc, ih]
        tauto

/-- Insertion preserves distinctness of the group keys. -/
theorem nodup_fst_insertStep :
    ∀ (acc : List (String × List VerificationStep)) (c : String) (s : VerificationStep),
      (acc.map Prod.fst).Nodup → ((insertStep acc c s).map Prod.fst).Nodup := by
  intro acc
  induction acc with
  | nil => intro c s _; simp [insertStep]
  | cons p rest ih =>
      rcases p with ⟨k, v⟩
      intro c s h
      rw [List.map_cons, List.nodup_cons] at h
      by_cases hkc : k = c
      · subst hkc
        simp [insertStep]
        exact ⟨fun x hx => h.1 (List.mem_map.mpr ⟨(k, x), hx, rfl⟩), h.2⟩
      · rw [show insertStep ((k, v) :: rest) c s = (k, v) :: insertStep rest c s from by
          simp [insertStep, hkc]]
        rw [List.map_cons, List.nodup_cons]
        refine ⟨?_, ih c s h.2⟩
        rw [mem_fst_insertStep]
        rintro (hm | hm)
        · exact h.1 hm
        · exact hkc hm

/-- A carrier has no group exactly when it is not among the group keys. -/
theorem groupFind_eq_none_iff :
    ∀ (g : List (String × List VerificationStep)) (c : String),
      groupFind g c = none ↔ c ∉ g.map Prod.fst := by
  intro g
  induction g with
  | nil => intro c; simp [groupFind]
  | cons p rest ih =>
      rcases p with ⟨k, v⟩
      intro c
      by_cases hkc : k = c
      · subst hkc
        simp [groupFind]
      · simp [groupFind, hkc, ih, Ne.symm hkc]

/-- Running the grouping loop over es on top of an accumulator: the group of
c collects the previous contents followed by the steps of the entries of c,
and carriers with no entries and no previous group stay absent. -/
theorem groupFind_foldl :
    ∀ (es : List VerificationEntry) (acc : List (String × List VerificationStep)) (c : String),
      groupFind (es.foldl (fun a e => insertStep a e.carrier e.step) acc) c =
        if c ∈ acc.map Prod.fst ∨ c ∈ es.map (fun e => e.carrier) then
          some (((groupFind acc c).getD []) ++ stepsOf es c)
        else none := by
  intro es
  induction es with
  | nil =>
      intro acc c
      simp only [List.foldl_nil, List.map_nil, List.not_mem_nil, or_false, stepsOf]
      by_cases hm : c ∈ acc.map Prod.fst
      · cases hfind : groupFind acc c with
        | none => exact absurd ((groupFind_eq_none_iff acc c).mp hfind) (by simpa using hm)
        | some v => simp [hm, hfind]
      · simp [hm, (groupFind_eq_none_iff acc c).mpr hm]
  | cons e es ih =>
      intro acc c
      rw [List.foldl_cons, ih]
      by_cases hce : c = e.carrier
      · subst hce
        rw [if_pos (Or.inl (by rw [mem_fst_insertStep]; exact Or.inr rfl))]
        rw [if_pos (Or.inr (by simp))]
        rw [groupFind_insertStep, if_pos rfl]
        rw [show stepsOf (e :: es) e.carrier = e.step :: stepsOf es e.carrier from by
          simp [stepsOf]]
        simp
      · rw [groupFind_insertStep, if_neg hce]
        have hec : ¬ e.carrier = c := fun h => hce h.symm
        rw [show stepsOf (e :: es) c = stepsOf es c from by simp [stepsOf, hec]]
        have hmem2 : (c ∈ (insertStep acc e.carrier e.step).map Prod.fst ∨
            c ∈ es.map fun e => e.carrier) ↔
            (c ∈ acc.map Prod.fst ∨ c ∈ (e :: es).map fun e => e.carrier) := by
          rw [mem_fst_insertStep]
          simp only [List.map_cons, List.mem_cons]
          tauto
        by_cases hc2 : c ∈ acc.map Prod.fst ∨ c ∈ (e :: es).map fun e => e.carrier
        · rw [if_pos (hmem2.mpr hc2), if_pos hc2]
        · rw [if_neg (fun h => hc2 (hmem2.mp h)), if_neg hc2]

/-- The group of carrier c in groupByCarrier es is exactly the steps of the
entries of c, and exists iff c has an entry. -/
theorem groupFind_groupByCarrier (es : List VerificationEntry) (c : String) :
    groupFind (groupByCarrier es) c =
      if c ∈ es.map (fun e => e.carrier) then some (stepsOf es c) else none := by
  have h := groupFind_foldl es [] c
  simpa [groupByCarrier, groupFind] using h

/-- A carrier appears among the groups iff it has at least one entry. -/
theorem mem_fst_groupByCarrier (es : List VerificationEntry) (c : String) :
    c ∈ (groupByCarrier es).map Prod.fst ↔ c ∈ es.map (fun e => e.carrier) := by
  constructor
  · intro hm
    by_contra hn
    have h1 := groupFind_groupByCarrier es c
    rw [if_neg hn] at h1
    exact absurd ((groupFind_eq_none_iff _ _).mp h1) (by simpa using hm)
  · intro hm
    by_contra hn
    have h1 := groupFind_groupByCarrier es c
    rw [if_pos hm, (groupFind_eq_none_iff _ _).mpr hn] at h1
    cases h1

/-- The group keys produced by groupByCarrier are distinct. -/
theorem nodup_fst_groupByCarrier (es : List VerificationEntry) :
    ((groupByCarrier es).map Prod.fst).Nodup := by
  have h : ∀ (l : List VerificationEntry) (acc : List (String × List VerificationStep)),
      (acc.map Prod.fst).Nodup →
      ((l.foldl (fun a e => insertStep a e.carrier e.step) acc).map Prod.fst).Nodup := by
    intro l
    induction l with
    | nil => intro acc h; simpa using h
    | cons e l ih =>
        intro acc h
        rw [List.foldl_cons]
        exact ih _ (nodup_fst_insertStep acc e.carrier e.step h)
  exact h es [] (by simp)

/-- With distinct keys, membership of a pair determines the lookup result. -/
theorem groupFind_of_mem :
    ∀ (g : List (String × List VerificationStep)),
      (g.map Prod.fst).Nodup →
      ∀ (c : String) (v : List VerificationStep), (c, v) ∈ g → groupFind g c = some v := by
  intro g
  induction g with
  | nil => intro _ c v hm; cases hm
  | cons p rest ih =>
      rcases p with ⟨k, w⟩
      intro hnd c v hm
      rw [List.map_cons, List.nodup_cons] at hnd
      rcases List.mem_cons.mp hm with heq | hmem
      · rw [show c = k from congrArg Prod.fst heq, show v = w from congrArg Prod.snd heq]
        simp [groupFind]
      · have hk : ¬ k = c := by
          intro hkc
          subst hkc
          exact hnd.1 (List.mem_map.mpr ⟨(k, v), hmem, rfl⟩)
        simp only [groupFind, if_neg hk]
        exact ih hnd.2 c v hmem

/-- A carrier with at least one entry has a non-empty step list. -/
theorem stepsOf_ne_nil (es : List VerificationEntry) (c : String)
    (h : c ∈ es.map (fun e => e.carrier)) : stepsOf es c ≠ [] := by
  induction es with
  | nil => simp at h
  | cons e es ih =>
      simp only [List.map_cons, List.mem_cons] at h
      by_cases hc : e.carrier = c
      · simp [stepsOf, hc]
      · rcases h with h | h
        · exact absurd h.symm hc
        · simpa [stepsOf, hc] using ih h

/-- The table installed by VerificationKeeper::new has a weight for every
step: the lookup never panics. -/
theorem findWeight_weightTable (v0 v1 v2 v3 v4 : Nat) (s : VerificationStep) :
    findWeight (weightTable v0 v1 v2 v3 v4) s = some (stepWeight v0 v1 v2 v3 v4 s) := by
  cases s <;> rfl

/-- Over the full table, the weight lookups of get_weighted_avg never panic
and produce the positional weights. -/
theorem lookupAllWeights_weightTable (v0 v1 v2 v3 v4 : Nat) :
    ∀ steps, lookupAllWeights steps (weightTable v0 v1 v2 v3 v4) =
      some (steps.map (stepWeight v0 v1 v2 v3 v4)) := by
  intro steps
  induction steps with
  | nil => rfl
  | cons s rest ih => simp [lookupAllWeights, findWeight_weightTable, ih]

/-- On a keeper carrying the full table, get_weighted_avg is total and
computes the arithmetic mean of the step weights. -/
theorem get_weighted_avg_eq (v0 v1 v2 v3 v4 : Nat) (k : VerificationKeeper)
    (hw : k.step_weights = weightTable v0 v1 v2 v3 v4) (steps : List VerificationStep) :
    k.get_weighted_avg steps = some (meanWeight v0 v1 v2 v3 v4 steps) := by
  unfold VerificationKeeper.get_weighted_avg
  rw [hw, lookupAllWeights_weightTable]
  rfl

/-- On a keeper carrying the full table, the per-group averaging loop is
total. -/
theorem rankGroups_eq (v0 v1 v2 v3 v4 : Nat) (k : VerificationKeeper)
    (hw : k.step_weights = weightTable v0 v1 v2 v3 v4) :
    ∀ groups, rankGroups k groups =
      some (groups.map (fun p => (p.1, meanWeight v0 v1 v2 v3 v4 p.2))) := by
  intro groups
  induction groups with
  | nil => rfl
  | cons p rest ih =>
      rcases p with ⟨c, steps⟩
      simp [rankGroups, get_weighted_avg_eq v0 v1 v2 v3 v4 k hw, ih]

/-- On a keeper carrying the full table, get_provider_rank is total and
returns the sorted list of per-carrier mean weights. -/
theorem get_provider_rank_eq (v0 v1 v2 v3 v4 : Nat) (k : VerificationKeeper)
    (hw : k.step_weights = weightTable v0 v1 v2 v3 v4) :
    k.get_provider_rank = some (List.insertionSort rankRel
      ((groupByCarrier k.entries).map (fun p => (p.1, meanWeight v0 v1 v2 v3 v4 p.2)))) := by
  unfold VerificationKeeper.get_provider_rank
  rw [rankGroups_eq v0 v1 v2 v3 v4 k hw]

/-- Iterated store_attempt calls append the entries in order and leave the
weight table unchanged. -/
theorem storeAll_eq :
    ∀ (es : List VerificationEntry) (k : VerificationKeeper),
      storeAll k es = ⟨k.entries ++ es, k.step_weights⟩ := by
  intro es
  induction es with
  | nil => intro k; cases k; simp [storeAll]
  | cons e es ih =>
      intro k
      rw [show storeAll k (e :: es) = storeAll ⟨k.entries ++ [e], k.step_weights⟩ es from rfl]
      rw [ih]
      simp

/-- A successful VerificationKeeper::new yields the empty log and the full
weight table. -/
theorem keeper_new_ok_shape (v0 v1 v2 v3 v4 : Nat) (k0 : VerificationKeeper)
    (hnew : VerificationKeeper.new v0 v1 v2 v3 v4 = Except.ok k0) :
    k0 = ⟨[], weightTable v0 v1 v2 v3 v4⟩ := by
  unfold VerificationKeeper.new at hnew
  split at hnew
  · cases hnew
  · cases hnew
    rfl

/-- Claim C4: for every sequence of stored entries, get_provider_rank
returns exactly one pair per carrier having at least one entry (with
no-entry carriers absent and every group non-empty, so no division by zero),
each pair carrying the arithmetic mean of the step weights of the entries
of that carrier, sorted ascending by mean; on the spec example with
weights 1 2 3 4 5 it returns B at 3/2 then A at 3. -/
theorem provider_rank_spec (v0 v1 v2 v3 v4 : Nat) (k0 : VerificationKeeper)
    (es : List VerificationEntry)
    (hnew : VerificationKeeper.new v0 v1 v2 v3 v4 = Except.ok k0) :
    (∃ r, (storeAll k0 es).get_provider_rank = some r ∧
      (∀ c, c ∈ r.map Prod.fst ↔ c ∈ es.map (fun e => e.carrier)) ∧
      (r.map Prod.fst).Nodup ∧
      (∀ p ∈ r, p.2 = meanWeight v0 v1 v2 v3 v4 (stepsOf es p.1) ∧ stepsOf es p.1 ≠ []) ∧
      (r.map Prod.snd).Chain' (fun a b => a ≤ b)) ∧
    (storeAll ⟨[], weightTable 1 2 3 4 5⟩ exampleEntries).get_provider_rank =
      some [("B", (3 : Rat)/2), ("A", (3 : Rat))] := by
  constructor
  · obtain rfl := keeper_new_ok_shape v0 v1 v2 v3 v4 k0 hnew
    have hK : storeAll (⟨[], weightTable v0 v1 v2 v3 v4⟩ : VerificationKeeper) es =
        ⟨es, weightTable v0 v1 v2 v3 v4⟩ := by
      rw [storeAll_eq]
      rfl
    rw [hK]
    refine ⟨List.insertionSort rankRel ((groupByCarrier es).map
      (fun p => (p.1, meanWeight v0 v1 v2 v3 v4 p.2))),
      get_provider_rank_eq v0 v1 v2 v3 v4 _ rfl, ?_, ?_, ?_, ?_⟩
    · intro c
      have hperm := (List.perm_insertionSort rankRel ((groupByCarrier es).map
        (fun p => (p.1, meanWeight v0 v1 v2 v3 v4 p.2)))).map Prod.fst
      have h1 : ((groupByCarrier es).map
          (fun p => (p.1, meanWeight v0 v1 v2 v3 v4 p.2))).map Prod.fst =
          (groupByCarrier es).map Prod.fst := by
        rw [List.map_map]
        exact List.map_congr_left (fun a _ => rfl)
      rw [h1] at hperm
      exact (hperm.mem_iff).trans (mem_fst_groupByCarrier es c)
    · have hperm := (List.perm_insertionSort rankRel ((groupByCarrier es).map
        (fun p => (p.1, meanWeight v0 v1 v2 v3 v4 p.2)))).map Prod.fst
      have h1 : ((groupByCarrier es).map
          (fun p => (p.1, meanWeight v0 v1 v2 v3 v4 p.2))).map Prod.fst =
          (groupByCarrier es).map Prod.fst := by
        rw [List.map_map]
        exact List.map_congr_left (fun a _ => rfl)
      rw [h1] at hperm
      exact hperm.nodup_iff.mpr (nodup_fst_groupByCarrier es)
    · intro p hp
      have hp2 : p ∈ (groupByCarrier es).map
          (fun p => (p.1, meanWeight v0 v1 v2 v3 v4 p.2)) :=
        (List.perm_insertionSort rankRel _).mem_iff.mp hp
      rcases List.mem_map.mp hp2 with ⟨q, hq, rfl⟩
      have hq1 : q.1 ∈ es.map (fun e => e.carrier) :=
        (mem_fst_groupByCarrier es q.1).mp (List.mem_map.mpr ⟨q, hq, rfl⟩)
      have hfind : groupFind (groupByCarrier es) q.1 = some q.2 :=
        groupFind_of_mem (groupByCarrier es) (nodup_fst_groupByCarrier es) q.1 q.2 hq
      have h2 := groupFind_groupByCarrier es q.1
      rw [if_pos hq1, hfind] at h2
      have hsteps : q.2 = stepsOf es q.1 := by
        injection h2
      constructor
      · show meanWeight v0 v1 v2 v3 v4 q.2 = meanWeight v0 v1 v2 v3 v4 (stepsOf es q.1)
        rw [hsteps]
      · exact stepsOf_ne_nil es q.1 hq1
    · have hs : List.Pairwise (fun a b : String × Rat => a.2 ≤ b.2)
          (List.insertionSort rankRel ((groupByCarrier es).map
            (fun p => (p.1, meanWeight v0 v1 v2 v3 v4 p.2)))) :=
        List.sorted_insertionSort rankRel _
      exact (List.pairwise_map.mpr hs).chain'
  · have hK2 : storeAll (⟨[], weightTable 1 2 3 4 5⟩ : VerificationKeeper) exampleEntries =
        ⟨exampleEntries, weightTable 1 2 3 4 5⟩ := by
      rw [storeAll_eq]
      rfl
    rw [hK2, get_provider_rank_eq 1 2 3 4 5 _ rfl]
    rw [show groupByCarrier exampleEntries =
      [("A", [VerificationStep.FirstSMS, VerificationStep.Unreachable]),
       ("B", [VerificationStep.FirstSMS, VerificationStep.SecondSMS])] from rfl]
    have hA : meanWeight 1 2 3 4 5 [VerificationStep.FirstSMS, VerificationStep.Unreachable] =
        3 := by
      norm_num [meanWeight, stepWeight]
    have hB : meanWeight 1 2 3 4 5 [VerificationStep.FirstSMS, VerificationStep.SecondSMS] =
        3/2 := by
      norm_num [meanWeight, stepWeight]
    simp only [List.map_cons, List.map_nil, hA, hB]
    rw [show List.insertionSort rankRel [("A", (3 : Rat)), ("B", (3 : Rat)/2)] =
      [("B", (3 : Rat)/2), ("A", (3 : Rat))] from by
      norm_num [List.insertionSort, List.orderedInsert, rankRel]]

/-- Witness for C4: the concrete two-carrier example. -/
theorem provider_rank_spec_witness :
    (storeAll ⟨[], weightTable 1 2 3 4 5⟩ exampleEntries).get_provider_rank =
      some [("B", (3 : Rat)/2), ("A", (3 : Rat))] :=
  (provider_rank_spec 1 2 3 4 5 ⟨[], weightTable 1 2 3 4 5⟩ [] rfl).2

/-- Claim C10: from any state reachable by VerificationKeeper::new followed
by store_attempt calls, get_provider_rank is total: the rank is computed (no
panic), every carrier group is non-empty (no NaN mean), and every step has a
key in the weight table. -/
theorem provider_rank_total (v0 v1 v2 v3 v4 : Nat) (k0 : VerificationKeeper)
    (es : List VerificationEntry)
    (hnew : VerificationKeeper.new v0 v1 v2 v3 v4 = Except.ok k0) :
    (∃ r, (storeAll k0 es).get_provider_rank = some r) ∧
    (∀ p ∈ groupByCarrier (storeAll k0 es).entries, p.2 ≠ []) ∧
    (∀ s : VerificationStep, findWeight (storeAll k0 es).step_weights s =
      some (stepWeight v0 v1 v2 v3 v4 s)) := by
  obtain rfl := keeper_new_ok_shape v0 v1 v2 v3 v4 k0 hnew
  have hK : storeAll (⟨[], weightTable v0 v1 v2 v3 v4⟩ : VerificationKeeper) es =
      ⟨es, weightTable v0 v1 v2 v3 v4⟩ := by
    rw [storeAll_eq]
    rfl
  rw [hK]
  refine ⟨⟨_, get_provider_rank_eq v0 v1 v2 v3 v4 _ rfl⟩, ?_, ?_⟩
  · intro p hp
    have hq1 : p.1 ∈ es.map (fun e => e.carrier) :=
      (mem_fst_groupByCarrier es p.1).mp (List.mem_map.mpr ⟨p, hp, rfl⟩)
    have hfind : groupFind (groupByCarrier es) p.1 = some p.2 :=
      groupFind_of_mem _ (nodup_fst_groupByCarrier es) p.1 p.2 hp
    have h2 := groupFind_groupByCarrier es p.1
    rw [if_pos hq1, hfind] at h2
    have hsteps : p.2 = stepsOf es p.1 := by injection h2
    rw [hsteps]
    exact stepsOf_ne_nil es p.1 hq1
  · intro s
    exact findWeight_weightTable v0 v1 v2 v3 v4 s

/-- Witness for C10 on the example entries. -/
theorem provider_rank_total_witness :
    findWeight (storeAll ⟨[], weightTable 1 2 3 4 5⟩ exampleEntries).step_weights
      VerificationStep.Unreachable = some 5 :=
  (provider_rank_total 1 2 3 4 5 ⟨[], weightTable 1 2 3 4 5⟩ exampleEntries rfl).2.2
    VerificationStep.Unreachable

/-! ## Reachability invariant supporting the selection hypotheses above -/

/-- A server built by VerificationServer::new with the round-robin strategy
starts with counter 0 and the given pool, so on a non-empty pool the counter
is below the pool size. -/
theorem new_roundrobin_balancer {ρ : Type} (carriers : List MockTelecomProvider)
    (repo : ρ) (s : VerificationServer ρ)
    (h : VerificationServer.new BalancerType.RoundRobin carriers repo = Except.ok s) :
    s.balancer.cur_idx = 0 ∧ s.carriers = carriers := by
  cases h
  exact ⟨rfl, rfl⟩

/-- handle_request keeps the balancer counter below the (unchanged) pool
size: together with new_roundrobin_balancer, every reachable server with a
non-empty pool has its counter selecting a carrier, which is the selection
hypothesis of the outcome theorems. -/
theorem handle_request_preserves_idx_bound {ρ : Type}
    (store : ρ → VerificationEntry → Except String ρ) (s : VerificationServer ρ)
    (request : VerificationRequest) (draws : Nat → Nat) (now : Int)
    (resp : VerificationResponse) (s2 : VerificationServer ρ)
    (hlt : s.balancer.cur_idx < s.carriers.length)
    (h : VerificationServer.handle_request store s request draws now =
      some (Except.ok (resp, s2))) :
    s2.balancer.cur_idx < s2.carriers.length ∧ s2.carriers = s.carriers := by
  have hlen : ¬ s.carriers.length = 0 := by omega
  have hpos : 0 < s.carriers.length := by omega
  obtain ⟨carrier, hc⟩ : ∃ carrier, s.carriers[s.balancer.cur_idx]? = some carrier :=
    ⟨_, List.getElem?_eq_some_iff.mpr ⟨hlt, rfl⟩⟩
  unfold VerificationServer.handle_request at h
  rw [show s.balancer.next_idx s.carriers.length =
      some (s.balancer.cur_idx, ⟨(s.balancer.cur_idx + 1) % s.carriers.length⟩) from by
    simp [RoundRobinBalancer.next_idx, hlen]] at h
  dsimp only at h
  rw [hc] at h
  dsimp only at h
  rcases hs : store s.repo (carrier.verify request.number now draws) with e | repo2 <;>
    rw [hs] at h <;> dsimp only at h
  · cases h
  · rcases h5 : (carrier.verify request.number now draws).step with h5 | h5 | h5 | h5 | h5 <;>
      rw [h5] at h <;> dsimp only at h <;>
      simp only [Option.some.injEq, Except.ok.injEq, Prod.mk.injEq] at h <;>
      rcases h with ⟨h1, h2⟩ <;> subst h2 <;>
      exact ⟨Nat.mod_lt _ hpos, rfl⟩
